import Mathlib

/-! Verification of the core of the py-part interval library (package `part`):
marks (interval boundaries), atomic intervals, Allen relations, the canonical
interval-collection engine (insertion, removal, sweep/merge set algebra), and
the interval dictionary compression pass.  The repository sources available
contain only the public type stubs, documentation and notebook examples; the
executable definitions below are therefore modelled from the specification,
with the stub declarations and the notebook calls fixing the public surface
(names, argument defaults, result types, raised exceptions). -/

namespace PyPart

/-- Modelled from the spec: the value carried by a `Mark` — either a proper
value of the totally ordered domain or one of the two infinity sentinels
(`None` on the lower side denotes negative infinity; on the upper side,
positive infinity).  The implementation module `part.values` is not in the
sources, so the sentinel order is taken from §3 of the spec. -/
inductive IVal (α : Type) where
  | ninf
  | point (a : α)
  | pinf
deriving DecidableEq

variable {α : Type} [LinearOrder α]

/-- Modelled from the spec: the total order on boundary values, with
`ninf` below every proper value and `pinf` above every proper value. -/
def IVal.leB : IVal α → IVal α → Bool
  | .ninf, _ => true
  | .point _, .ninf => false
  | .point a, .point b => decide (a ≤ b)
  | .point _, .pinf => true
  | .pinf, .ninf => false
  | .pinf, .point _ => false
  | .pinf, .pinf => true

theorem IVal.leB_refl_iv (a : IVal α) : IVal.leB a a = true := by
  cases a <;> simp [IVal.leB]

theorem IVal.leB_trans_iv {a b c : IVal α} (h1 : IVal.leB a b = true)
    (h2 : IVal.leB b c = true) : IVal.leB a c = true := by
  cases a <;> cases b <;> cases c <;> simp_all [IVal.leB] <;> exact le_trans h1 h2

theorem IVal.leB_antisymm_iv {a b : IVal α} (h1 : IVal.leB a b = true)
    (h2 : IVal.leB b a = true) : a = b := by
  cases a <;> cases b <;> simp_all [IVal.leB] <;> exact le_antisymm h1 h2

theorem IVal.leB_total_iv (a b : IVal α) : IVal.leB a b = true ∨ IVal.leB b a = true := by
  cases a <;> cases b <;> simp [IVal.leB] <;> exact le_total _ _

theorem IVal.leB_asymm_of_ne {a b : IVal α} (h : a ≠ b) :
    IVal.leB a b = !IVal.leB b a := by
  rcases h1 : IVal.leB a b with _ | _ <;> rcases h2 : IVal.leB b a with _ | _ <;> simp
  · rcases IVal.leB_total_iv a b with h | h
    · exact absurd h (by simp [h1])
    · exact absurd h (by simp [h2])
  · exact h (IVal.leB_antisymm_iv h1 h2)

/-- Modelled from the spec: a `Mark` encodes one interval endpoint.  The spec
describes it as (value, closed flag, lower/upper side); following the
"closed endpoints sort outward" tie-break rule of §3 this is encoded here as a
value together with an integer displacement `type`: `0` stands for exactly the
value (a closed endpoint), `1` for "just above the value" (an open lower
endpoint, or the position immediately after a closed upper endpoint), `-1` for
"just below the value" (an open upper endpoint).  Marks compare
lexicographically by (value, displacement). -/
structure Mark (α : Type) where
  val : IVal α
  type : ℤ
deriving DecidableEq

/-- Modelled from the spec: total order on marks — compare by effective value,
then by the open/closed displacement. -/
def Mark.leB (m n : Mark α) : Bool :=
  if m.val = n.val then decide (m.type ≤ n.type) else IVal.leB m.val n.val

/-- Strict order on marks. -/
def Mark.ltB (m n : Mark α) : Bool := !(Mark.leB n m)

theorem Mark.leB_refl (m : Mark α) : Mark.leB m m = true := by
  simp [Mark.leB]

theorem Mark.leB_trans {m n p : Mark α} (h1 : Mark.leB m n = true)
    (h2 : Mark.leB n p = true) : Mark.leB m p = true := by
  unfold Mark.leB at h1 h2 ⊢
  by_cases e1 : m.val = n.val
  · by_cases e2 : n.val = p.val
    · rw [if_pos e1] at h1
      rw [if_pos e2] at h2
      rw [if_pos (e1.trans e2)]
      simp only [decide_eq_true_eq] at h1 h2 ⊢
      omega
    · rw [if_neg e2] at h2
      rw [if_neg (fun h => e2 (e1.symm.trans h)), e1]
      exact h2
  · by_cases e2 : n.val = p.val
    · rw [if_neg e1] at h1
      rw [if_neg (fun h => e1 (h.trans e2.symm)), ← e2]
      exact h1
    · rw [if_neg e1] at h1
      rw [if_neg e2] at h2
      by_cases e3 : m.val = p.val
      · rw [← e3] at h2
        exact absurd (IVal.leB_antisymm_iv h1 h2) e1
      · rw [if_neg e3]
        exact IVal.leB_trans_iv h1 h2

theorem Mark.leB_antisymm {m n : Mark α} (h1 : Mark.leB m n = true)
    (h2 : Mark.leB n m = true) : m = n := by
  unfold Mark.leB at *
  by_cases e : m.val = n.val
  · simp_all
    cases m; cases n
    simp_all
    omega
  · rw [if_neg e] at h1
    rw [if_neg (fun h => e h.symm)] at h2
    exact absurd (IVal.leB_antisymm_iv h1 h2) e

theorem Mark.leB_total (m n : Mark α) : Mark.leB m n = true ∨ Mark.leB n m = true := by
  unfold Mark.leB
  by_cases e : m.val = n.val
  · simp [e]
    omega
  · rw [if_neg e, if_neg (fun h => e h.symm)]
    exact IVal.leB_total_iv _ _

theorem Mark.leB_of_not_leB {m n : Mark α} (h : Mark.leB m n = false) :
    Mark.leB n m = true := by
  rcases Mark.leB_total m n with h' | h'
  · rw [h'] at h; cases h
  · exact h'

theorem Mark.ltB_iff_not_leB {m n : Mark α} : Mark.ltB m n = true ↔ Mark.leB n m = false := by
  simp [Mark.ltB]

theorem Mark.leB_of_ltB {m n : Mark α} (h : Mark.ltB m n = true) : Mark.leB m n = true :=
  Mark.leB_of_not_leB (Mark.ltB_iff_not_leB.1 h)

theorem Mark.ltB_of_leB_of_ltB {m n p : Mark α} (h1 : Mark.leB m n = true)
    (h2 : Mark.ltB n p = true) : Mark.ltB m p = true := by
  rw [Mark.ltB_iff_not_leB] at h2 ⊢
  rcases h3 : Mark.leB p m with _ | _
  · rfl
  · exact absurd (Mark.leB_trans h3 h1) (by simp [h2])

theorem Mark.ltB_of_ltB_of_leB {m n p : Mark α} (h1 : Mark.ltB m n = true)
    (h2 : Mark.leB n p = true) : Mark.ltB m p = true := by
  rw [Mark.ltB_iff_not_leB] at h1 ⊢
  rcases h3 : Mark.leB p m with _ | _
  · rfl
  · exact absurd (Mark.leB_trans h2 h3) (by simp [h1])

theorem Mark.ltB_trans {m n p : Mark α} (h1 : Mark.ltB m n = true)
    (h2 : Mark.ltB n p = true) : Mark.ltB m p = true :=
  Mark.ltB_of_leB_of_ltB (Mark.leB_of_ltB h1) h2

theorem Mark.ltB_irrefl (m : Mark α) : Mark.ltB m m = false := by
  simp [Mark.ltB, Mark.leB_refl]

theorem Mark.not_ltB_of_leB {m n : Mark α} (h : Mark.leB m n = true) :
    Mark.ltB n m = false := by
  simp [Mark.ltB, h]

theorem Mark.eq_of_not_ltB {m n : Mark α} (h1 : Mark.ltB m n = false)
    (h2 : Mark.ltB n m = false) : m = n := by
  simp [Mark.ltB] at h1 h2
  exact Mark.leB_antisymm h2 h1

/-- The position immediately after a mark: no mark position lies strictly
between a mark and its successor.  Two marks are "near" in the sense of §3
exactly when the second is the successor of the first. -/
def Mark.succ (m : Mark α) : Mark α := ⟨m.val, m.type + 1⟩

/-- The position immediately before a mark. -/
def Mark.pred (m : Mark α) : Mark α := ⟨m.val, m.type - 1⟩

omit [LinearOrder α] in
theorem Mark.succ_pred (m : Mark α) : m.pred.succ = m := by
  cases m; simp [Mark.succ, Mark.pred]

omit [LinearOrder α] in
theorem Mark.pred_succ (m : Mark α) : m.succ.pred = m := by
  cases m; simp [Mark.succ, Mark.pred]

theorem Mark.ltB_succ_self (m : Mark α) : Mark.ltB m m.succ = true := by
  simp [Mark.ltB, Mark.leB, Mark.succ]

theorem Mark.ltB_eq_succ_leB (m n : Mark α) : Mark.ltB m n = Mark.leB m.succ n := by
  unfold Mark.ltB Mark.leB Mark.succ
  dsimp only
  by_cases e : m.val = n.val
  · rw [if_pos e.symm, if_pos e, ← decide_not, decide_eq_decide]
    omega
  · rw [if_neg (fun h => e h.symm), if_neg e]
    exact (IVal.leB_asymm_of_ne e).symm

theorem Mark.leB_pred_eq_ltB (m n : Mark α) : Mark.leB m n.pred = Mark.ltB m n := by
  rw [Mark.ltB_eq_succ_leB]
  unfold Mark.leB Mark.pred Mark.succ
  dsimp only
  by_cases e : m.val = n.val
  · rw [if_pos e, if_pos e, decide_eq_decide]
    omega
  · rw [if_neg e, if_neg e]

/-- Modelled from the spec: two marks are "near" (adjacent, no point strictly
between them) iff they bound exactly the same value with complementary
closure; in the displacement encoding this says the second mark is the
immediate successor of the first. -/
def Mark.nearB (m n : Mark α) : Bool := decide (n = m.succ)

/-- A strict gap between an upper mark and a following lower mark: the second
mark is strictly after, and not near, the first.  Two canonical neighbours
must be separated by such a gap. -/
def gapB (m n : Mark α) : Bool := Mark.ltB m.succ n

theorem Mark.ltB_eq_leB_and_ne (m n : Mark α) :
    Mark.ltB m n = (Mark.leB m n && !(decide (m = n))) := by
  rcases h1 : Mark.leB n m with _ | _
  · have h2 := Mark.leB_of_not_leB h1
    have h3 : decide (m = n) = false := by
      rcases h : decide (m = n) with _ | _
      · rfl
      · simp only [decide_eq_true_eq] at h
        rw [h, Mark.leB_refl] at h1
        cases h1
    simp [Mark.ltB, h1, h2, h3]
  · rcases h2 : Mark.leB m n with _ | _
    · simp [Mark.ltB, h1, h2]
    · have h3 : m = n := Mark.leB_antisymm h2 h1
      simp [Mark.ltB, h1, h3, Mark.leB_refl]

/-- The gap predicate coincides with the spec formulation: strictly before and
not near. -/
theorem gapB_eq_ltB_and_not_nearB (m n : Mark α) :
    gapB m n = (Mark.ltB m n && !Mark.nearB m n) := by
  unfold gapB Mark.nearB
  rw [Mark.ltB_eq_leB_and_ne, ← Mark.ltB_eq_succ_leB]
  have : decide (m.succ = n) = decide (n = m.succ) := by
    rw [decide_eq_decide]; exact eq_comm
  rw [this]

theorem ltB_of_gapB {m n : Mark α} (h : gapB m n = true) : Mark.ltB m n = true :=
  Mark.ltB_trans (Mark.ltB_succ_self m) h

theorem gapB_trans_le {m n p q : Mark α} (h1 : gapB m n = true)
    (h2 : Mark.leB n p = true) (h3 : gapB p q = true) : gapB m q = true :=
  Mark.ltB_of_ltB_of_leB (Mark.ltB_of_ltB_of_leB h1 h2)
    (Mark.leB_of_ltB (ltB_of_gapB h3))

/-- Modelled from the spec: a (non-empty) atomic interval is a pair of marks,
representing all positions between its lower and upper mark inclusive. -/
structure Interval (α : Type) where
  lower : Mark α
  upper : Mark α
deriving DecidableEq

/-- An interval is non-empty when its lower mark does not strictly exceed its
upper mark (§3 invariant for NonEmpty atomic intervals). -/
def Interval.nonemptyB (i : Interval α) : Bool := Mark.leB i.lower i.upper

/-- Canonical form (§3): every member interval is non-empty, and any two
members (in list order) are separated by a strict, non-near gap.  This single
pairwise condition packages "sorted ascending by lower mark", "pairwise
disjoint" and "no two consecutive intervals are near"; the three spec
properties are derived from it below. -/
def Canon (s : List (Interval α)) : Prop :=
  (∀ i ∈ s, i.nonemptyB = true) ∧
    s.Pairwise (fun i j => gapB i.upper j.lower = true)

instance (s : List (Interval α)) : Decidable (Canon s) :=
  inferInstanceAs (Decidable (_ ∧ _))

theorem Canon.nil : Canon ([] : List (Interval α)) := by
  constructor <;> simp

theorem Canon.cons_iff {i : Interval α} {s : List (Interval α)} :
    Canon (i :: s) ↔ i.nonemptyB = true ∧
      (∀ j ∈ s, gapB i.upper j.lower = true) ∧ Canon s := by
  unfold Canon
  simp only [List.mem_cons, List.pairwise_cons, forall_eq_or_imp]
  tauto

theorem Canon.tail {i : Interval α} {s : List (Interval α)} (h : Canon (i :: s)) :
    Canon s := (Canon.cons_iff.1 h).2.2

/-- Coverage of a mark position by a list of intervals: the semantic meaning
of a collection, used to state correctness of the sweep algorithms. -/
def cover (s : List (Interval α)) (m : Mark α) : Bool :=
  s.any fun i => Mark.leB i.lower m && Mark.leB m i.upper

theorem cover_nil (m : Mark α) : cover ([] : List (Interval α)) m = false := rfl

theorem cover_cons {i : Interval α} {s : List (Interval α)} {m : Mark α} :
    cover (i :: s) m =
      ((Mark.leB i.lower m && Mark.leB m i.upper) || cover s m) := by
  simp [cover]

theorem cover_eq_false_of_forall_ltB {s : List (Interval α)} {m : Mark α}
    (h : ∀ i ∈ s, Mark.ltB m i.lower = true) : cover s m = false := by
  simp only [cover, List.any_eq_false, Bool.and_eq_true, not_and]
  intro i hi hle
  have := Mark.not_ltB_of_leB hle
  rw [h i hi] at this
  cases this

theorem cover_tail_ltB {i : Interval α} {s : List (Interval α)} {m : Mark α}
    (h : Canon (i :: s)) (hc : cover s m = true) : Mark.ltB i.upper m = true := by
  simp only [cover, List.any_eq_true, Bool.and_eq_true] at hc
  obtain ⟨j, hj, hjl, _⟩ := hc
  exact Mark.ltB_of_ltB_of_leB (ltB_of_gapB ((Canon.cons_iff.1 h).2.1 j hj)) hjl

theorem cover_head_leB {i : Interval α} {s : List (Interval α)} {m : Mark α}
    (h : Canon (i :: s)) (hc : cover (i :: s) m = true) :
    Mark.leB i.lower m = true := by
  rw [cover_cons] at hc
  rcases Bool.or_eq_true_iff.1 hc with h' | h'
  · simp only [Bool.and_eq_true] at h'
    exact h'.1
  · have h1 := cover_tail_ltB h h'
    have h2 := (Canon.cons_iff.1 h).1
    exact Mark.leB_of_ltB (Mark.ltB_of_leB_of_ltB h2 h1)

theorem cover_self_lower {i : Interval α} {s : List (Interval α)}
    (h : Canon (i :: s)) : cover (i :: s) i.lower = true := by
  have h1 : Mark.leB i.lower i.upper = true := (Canon.cons_iff.1 h).1
  rw [cover_cons, Mark.leB_refl, h1]
  rfl

theorem cover_tail_eq {i : Interval α} {s : List (Interval α)} {m : Mark α}
    (h : Canon (i :: s)) :
    cover s m = (cover (i :: s) m && Mark.ltB i.upper m) := by
  rcases hc : cover s m with _ | _
  · rcases hm : Mark.ltB i.upper m with _ | _
    · simp
    · rw [cover_cons, hc, Bool.or_false]
      have : Mark.leB m i.upper = false := by
        rcases hml : Mark.leB m i.upper with _ | _
        · rfl
        · rw [Mark.not_ltB_of_leB hml] at hm; cases hm
      simp [this]
  · rw [cover_tail_ltB h hc, cover_cons, hc]
    simp

/-- Canonical-form uniqueness: two canonical interval lists with the same
coverage semantics are equal.  This is the key tool used to settle the set
algebra laws as equalities on the canonical representation. -/
theorem canon_ext : ∀ (A B : List (Interval α)), Canon A → Canon B →
    (∀ m, cover A m = cover B m) → A = B := by
  intro A
  induction A with
  | nil =>
    intro B hA hB hext
    cases B with
    | nil => rfl
    | cons j B' =>
      have h1 := cover_self_lower hB
      rw [← hext j.lower, cover_nil] at h1
      cases h1
  | cons i A' ih =>
    intro B hA hB hext
    cases B with
    | nil =>
      have h1 := cover_self_lower hA
      rw [hext i.lower, cover_nil] at h1
      cases h1
    | cons j B' =>
      have hlow : i.lower = j.lower := by
        have h1 : Mark.leB j.lower i.lower = true := by
          have := cover_self_lower hA
          rw [hext i.lower] at this
          exact cover_head_leB hB this
        have h2 : Mark.leB i.lower j.lower = true := by
          have := cover_self_lower hB
          rw [← hext j.lower] at this
          exact cover_head_leB hA this
        exact (Mark.leB_antisymm h1 h2).symm
      have key : ∀ (x y : Interval α) (X Y : List (Interval α)),
          Canon (x :: X) → Canon (y :: Y) → x.lower = y.lower →
          (∀ m, cover (x :: X) m = cover (y :: Y) m) →
          Mark.ltB x.upper y.upper = false := by
        intro x y X Y hX hY hl hxt
        rcases hu : Mark.ltB x.upper y.upper with _ | _
        · rfl
        · exfalso
          have hcy : cover (y :: Y) x.upper.succ = true := by
            rw [cover_cons]
            have h1 : Mark.leB y.lower x.upper.succ = true := by
              rw [← hl]
              exact Mark.leB_of_ltB (Mark.ltB_of_leB_of_ltB
                (Canon.cons_iff.1 hX).1 (Mark.ltB_succ_self _))
            have h2 : Mark.leB x.upper.succ y.upper = true := by
              rw [← Mark.ltB_eq_succ_leB]; exact hu
            rw [h1, h2]; rfl
          have hcx : cover (x :: X) x.upper.succ = false := by
            rw [cover_cons]
            have h1 : Mark.leB x.upper.succ x.upper = false := by
              rw [← Mark.ltB_eq_succ_leB, Mark.ltB_irrefl]
            have h2 : cover X x.upper.succ = false :=
              cover_eq_false_of_forall_ltB fun k hk =>
                (Canon.cons_iff.1 hX).2.1 k hk
            rw [h1, h2]
            simp
          rw [hxt x.upper.succ, hcy] at hcx
          cases hcx
      have hupp : i.upper = j.upper := by
        have h1 := key i j A' B' hA hB hlow hext
        have h2 := key j i B' A' hB hA hlow.symm (fun m => (hext m).symm)
        exact Mark.eq_of_not_ltB h1 h2
      have hij : i = j := by
        cases i; cases j
        simp_all
      subst hij
      have hext' : ∀ m, cover A' m = cover B' m := by
        intro m
        rw [cover_tail_eq hA, cover_tail_eq hB, hext m, hupp]
      rw [ih B' hA.tail hB.tail hext']

theorem Mark.leB_of_ltB_false {m n : Mark α} (h : Mark.ltB m n = false) :
    Mark.leB n m = true := by
  simpa [Mark.ltB] using h

theorem Mark.leB_eq_ltB_succ (m n : Mark α) : Mark.leB m n = Mark.ltB m n.succ := by
  have h := Mark.leB_pred_eq_ltB m n.succ
  rwa [Mark.pred_succ] at h

/-- The boundary-event stream of a canonical list: each interval contributes a
"switch on" event at its lower mark and a "switch off" event at the successor
of its upper mark.  The sweep set algebra of §4.3 is a merge of two such
sorted event streams. -/
def evts : List (Interval α) → List (Mark α)
  | [] => []
  | i :: rest => i.lower :: i.upper.succ :: evts rest

/-- State of an on/off event stream at a mark position: starting from `st`,
every event positioned at or before `m` toggles the state. -/
def covFrom : List (Mark α) → Bool → Mark α → Bool
  | [], st, _ => st
  | e :: es, st, m => if Mark.ltB m e = true then st else covFrom es (!st) m

/-- Rebuild intervals from an alternating on/off event stream: each on/off
pair `(a, b)` denotes the atomic interval from `a` up to the predecessor
of `b`. -/
def toIntervals : List (Mark α) → List (Interval α)
  | [] => []
  | [_] => []
  | a :: b :: rest => ⟨a, b.pred⟩ :: toIntervals rest

/-- Strictly ascending mark list. -/
def SortedM (es : List (Mark α)) : Prop :=
  es.Pairwise fun a b => Mark.ltB a b = true

theorem covFrom_stable {es : List (Mark α)} {m : Mark α}
    (h : ∀ e ∈ es, Mark.ltB m e = true) : ∀ st, covFrom es st m = st := by
  induction es with
  | nil => intro st; rfl
  | cons e es ih =>
    intro st
    rw [covFrom, if_pos (h e (List.mem_cons_self e es))]

theorem evts_mem {s : List (Interval α)} {x : Mark α} (h : x ∈ evts s) :
    ∃ j ∈ s, x = j.lower ∨ x = j.upper.succ := by
  induction s with
  | nil => cases h
  | cons i rest ih =>
    rw [evts] at h
    simp only [List.mem_cons] at h
    rcases h with h | h | h
    · exact ⟨i, List.mem_cons_self i rest, Or.inl h⟩
    · exact ⟨i, List.mem_cons_self i rest, Or.inr h⟩
    · obtain ⟨j, hj, hx⟩ := ih h
      exact ⟨j, List.mem_cons_of_mem _ hj, hx⟩

theorem evts_length_even (s : List (Interval α)) : (evts s).length % 2 = 0 := by
  induction s with
  | nil => rfl
  | cons i rest ih =>
    rw [evts]
    simp only [List.length_cons]
    omega

theorem evts_sorted {s : List (Interval α)} (h : Canon s) : SortedM (evts s) := by
  induction s with
  | nil => exact List.Pairwise.nil
  | cons i rest ih =>
    obtain ⟨hne, hgap, htail⟩ := Canon.cons_iff.1 h
    have hbig : ∀ x ∈ evts rest, Mark.ltB i.upper.succ x = true := by
      intro x hx
      obtain ⟨j, hj, hx⟩ := evts_mem hx
      have h1 : Mark.ltB i.upper.succ j.lower = true := hgap j hj
      rcases hx with rfl | rfl
      · exact h1
      · have h2 : (∀ k ∈ rest, k.nonemptyB = true) := fun k hk =>
          h.1 k (List.mem_cons_of_mem _ hk)
        exact Mark.ltB_trans (Mark.ltB_of_ltB_of_leB h1 (h2 j hj))
          (Mark.ltB_succ_self _)
    have hlu : Mark.ltB i.lower i.upper.succ = true :=
      Mark.ltB_of_leB_of_ltB hne (Mark.ltB_succ_self _)
    rw [evts]
    refine List.pairwise_cons.2 ⟨?_, List.pairwise_cons.2 ⟨hbig, ih htail⟩⟩
    intro x hx
    simp only [List.mem_cons] at hx
    rcases hx with rfl | hx
    · exact hlu
    · exact Mark.ltB_trans hlu (hbig x hx)

theorem covFrom_evts {s : List (Interval α)} (h : Canon s) (m : Mark α) :
    covFrom (evts s) false m = cover s m := by
  induction s with
  | nil => rfl
  | cons i rest ih =>
    obtain ⟨hne, hgap, htail⟩ := Canon.cons_iff.1 h
    rw [evts, covFrom, cover_cons]
    rcases hml : Mark.ltB m i.lower with _ | _
    · have hal : Mark.leB i.lower m = true := Mark.leB_of_ltB_false hml
      rw [if_neg (by simp [hml])]
      rw [covFrom]
      rcases hmu : Mark.ltB m i.upper.succ with _ | _
      · have hmu' : Mark.leB m i.upper = false := by
          rw [Mark.leB_eq_ltB_succ, hmu]
        rw [if_neg (by simp [hmu]), hal, hmu']
        simp only [Bool.true_and, Bool.false_or]
        exact ih htail
      · have hmu' : Mark.leB m i.upper = true := by
          rw [Mark.leB_eq_ltB_succ, hmu]
        rw [if_pos rfl, hal, hmu']
        simp
    · rw [if_pos rfl]
      have hal : Mark.leB i.lower m = false := by
        rcases hx : Mark.leB i.lower m with _ | _
        · rfl
        · rw [Mark.not_ltB_of_leB hx] at hml; cases hml
      have hrest : cover rest m = false := by
        refine cover_eq_false_of_forall_ltB fun j hj => ?_
        exact Mark.ltB_trans hml (Mark.ltB_of_leB_of_ltB hne
          (Mark.ltB_trans (Mark.ltB_succ_self _) (hgap j hj)))
      rw [hal, hrest]
      simp

theorem toIntervals_lower_mem :
    ∀ (es : List (Mark α)) (j : Interval α), j ∈ toIntervals es → j.lower ∈ es
  | [], _, h => absurd h (by simp [toIntervals])
  | [_], _, h => absurd h (by simp [toIntervals])
  | a :: b :: rest, j, h => by
    rw [toIntervals] at h
    simp only [List.mem_cons] at h
    rcases h with rfl | h
    · exact List.mem_cons_self a (b :: rest)
    · exact List.mem_cons_of_mem a
        (List.mem_cons_of_mem b (toIntervals_lower_mem rest j h))

theorem toIntervals_canon :
    ∀ es : List (Mark α), SortedM es → Canon (toIntervals es)
  | [], _ => Canon.nil
  | [_], _ => Canon.nil
  | a :: b :: rest, h => by
    obtain ⟨hab, h'⟩ := List.pairwise_cons.1 h
    obtain ⟨hbr, h''⟩ := List.pairwise_cons.1 h'
    rw [toIntervals]
    refine Canon.cons_iff.2 ⟨?_, ?_, toIntervals_canon rest h''⟩
    · show Mark.leB a b.pred = true
      rw [Mark.leB_pred_eq_ltB]
      exact hab b (List.mem_cons_self b rest)
    · intro j hj
      show Mark.ltB b.pred.succ j.lower = true
      rw [Mark.succ_pred]
      exact hbr j.lower (toIntervals_lower_mem rest j hj)

theorem cover_toIntervals :
    ∀ es : List (Mark α), SortedM es → es.length % 2 = 0 →
      ∀ m, cover (toIntervals es) m = covFrom es false m
  | [], _, _, _ => rfl
  | [_], _, hlen, _ => by simp at hlen
  | a :: b :: rest, h, hlen, m => by
    obtain ⟨hab, h'⟩ := List.pairwise_cons.1 h
    obtain ⟨hbr, h''⟩ := List.pairwise_cons.1 h'
    have hlen' : rest.length % 2 = 0 := by
      simp only [List.length_cons] at hlen
      omega
    rw [toIntervals, cover_cons, covFrom]
    rcases hma : Mark.ltB m a with _ | _
    · have hal : Mark.leB a m = true := Mark.leB_of_ltB_false hma
      rw [if_neg (by simp [hma]), covFrom]
      rcases hmb : Mark.ltB m b with _ | _
      · have hmb' : Mark.leB m b.pred = false := by
          rw [Mark.leB_pred_eq_ltB, hmb]
        rw [if_neg (by simp [hmb]), hal, hmb']
        simp only [Bool.true_and, Bool.false_or]
        exact cover_toIntervals rest h'' hlen' m
      · have hmb' : Mark.leB m b.pred = true := by
          rw [Mark.leB_pred_eq_ltB, hmb]
        rw [if_pos rfl, hal, hmb']
        simp
    · rw [if_pos rfl]
      have hal : Mark.leB a m = false := by
        rcases hx : Mark.leB a m with _ | _
        · rfl
        · rw [Mark.not_ltB_of_leB hx] at hma; cases hma
      have hrest : cover (toIntervals rest) m = false := by
        refine cover_eq_false_of_forall_ltB fun j hj => ?_
        have h1 : Mark.ltB a j.lower = true := by
          have := hab j.lower (List.mem_cons_of_mem _ (toIntervals_lower_mem rest j hj))
          exact this
        exact Mark.ltB_trans hma h1
      rw [hal, hrest]
      simp

/-- Modelled from the spec (§4.3): the single forward merge/sweep over two
sorted boundary-event streams.  `a` and `b` are the current membership states
of the two operand collections, `o` the current output state (kept equal to
`op a b`); an output event is emitted exactly where the output state changes,
which re-normalizes the emitted sequence on the fly. -/
def sweepAux (f : Bool → Bool → Bool) :
    List (Mark α) → List (Mark α) → Bool → Bool → Bool → List (Mark α)
  | [], [], _, _, _ => []
  | ea :: as, [], a, b, o =>
    (if f (!a) b = o then [] else [ea]) ++ sweepAux f as [] (!a) b (f (!a) b)
  | [], eb :: bs, a, b, o =>
    (if f a (!b) = o then [] else [eb]) ++ sweepAux f [] bs a (!b) (f a (!b))
  | ea :: as, eb :: bs, a, b, o =>
    if Mark.ltB ea eb = true then
      (if f (!a) b = o then [] else [ea]) ++
        sweepAux f as (eb :: bs) (!a) b (f (!a) b)
    else if Mark.ltB eb ea = true then
      (if f a (!b) = o then [] else [eb]) ++
        sweepAux f (ea :: as) bs a (!b) (f a (!b))
    else
      (if f (!a) (!b) = o then [] else [ea]) ++
        sweepAux f as bs (!a) (!b) (f (!a) (!b))
termination_by as bs _ _ _ => as.length + bs.length

/-- Fuel-driven twin of `sweepAux`, structurally recursive on the fuel so that
concrete runs of the sweep reduce inside the kernel; `sweepExec_eq` below
shows it computes exactly `sweepAux` whenever the fuel covers both streams. -/
def sweepExec (f : Bool → Bool → Bool) :
    Nat → List (Mark α) → List (Mark α) → Bool → Bool → Bool → List (Mark α)
  | 0, _, _, _, _, _ => []
  | _ + 1, [], [], _, _, _ => []
  | n + 1, ea :: as, [], a, b, o =>
    (if f (!a) b = o then [] else [ea]) ++ sweepExec f n as [] (!a) b (f (!a) b)
  | n + 1, [], eb :: bs, a, b, o =>
    (if f a (!b) = o then [] else [eb]) ++ sweepExec f n [] bs a (!b) (f a (!b))
  | n + 1, ea :: as, eb :: bs, a, b, o =>
    if Mark.ltB ea eb = true then
      (if f (!a) b = o then [] else [ea]) ++
        sweepExec f n as (eb :: bs) (!a) b (f (!a) b)
    else if Mark.ltB eb ea = true then
      (if f a (!b) = o then [] else [eb]) ++
        sweepExec f n (ea :: as) bs a (!b) (f a (!b))
    else
      (if f (!a) (!b) = o then [] else [ea]) ++
        sweepExec f n as bs (!a) (!b) (f (!a) (!b))

theorem sweepExec_eq (f : Bool → Bool → Bool) :
    ∀ (n : Nat) (as bs : List (Mark α)) (a b o : Bool),
      as.length + bs.length ≤ n →
      sweepExec f n as bs a b o = sweepAux f as bs a b o
  | 0, [], [], a, b, o, _ => by
    rw [sweepExec, sweepAux]
  | 0, x :: _, _, _, _, _, h => by
    simp at h
  | 0, [], _ :: _, _, _, _, h => by
    simp at h
  | n + 1, [], [], a, b, o, _ => by
    rw [sweepExec, sweepAux]
  | n + 1, ea :: as, [], a, b, o, h => by
    rw [sweepExec, sweepAux, sweepExec_eq f n as [] (!a) b (f (!a) b)
      (by simp at h ⊢; omega)]
  | n + 1, [], eb :: bs, a, b, o, h => by
    rw [sweepExec, sweepAux, sweepExec_eq f n [] bs a (!b) (f a (!b))
      (by simp at h ⊢; omega)]
  | n + 1, ea :: as, eb :: bs, a, b, o, h => by
    rw [sweepExec, sweepAux]
    by_cases hab : Mark.ltB ea eb = true
    · simp only [hab, if_true]
      rw [sweepExec_eq f n as (eb :: bs) (!a) b (f (!a) b)
        (by simp at h ⊢; omega)]
    · have hab' : Mark.ltB ea eb = false := by simpa using hab
      simp only [hab', Bool.false_eq_true, if_false]
      by_cases hba : Mark.ltB eb ea = true
      · simp only [hba, if_true]
        rw [sweepExec_eq f n (ea :: as) bs a (!b) (f a (!b))
          (by simp at h ⊢; omega)]
      · have hba' : Mark.ltB eb ea = false := by simpa using hba
        simp only [hba', Bool.false_eq_true, if_false]
        rw [sweepExec_eq f n as bs (!a) (!b) (f (!a) (!b))
          (by simp at h ⊢; omega)]

theorem mem_if_cons {P : Prop} [Decidable P] {e x : Mark α} {L : List (Mark α)}
    (h : x ∈ (if P then [] else [e]) ++ L) : x = e ∨ x ∈ L := by
  by_cases hP : P
  · rw [if_pos hP] at h
    exact Or.inr h
  · rw [if_neg hP] at h
    rcases List.mem_append.1 h with h' | h'
    · exact Or.inl (List.mem_singleton.1 h')
    · exact Or.inr h'

theorem sortedM_if_cons (P : Prop) [Decidable P] {e : Mark α} {L : List (Mark α)}
    (hL : SortedM L) (hlb : ∀ x ∈ L, Mark.ltB e x = true) :
    SortedM ((if P then [] else [e]) ++ L) := by
  by_cases h : P
  · rw [if_pos h]; exact hL
  · rw [if_neg h]; exact List.pairwise_cons.2 ⟨hlb, hL⟩

theorem sweepAux_lb (f : Bool → Bool → Bool) :
    ∀ (as bs : List (Mark α)) (a b o : Bool) (c : Mark α),
      (∀ e ∈ as, Mark.ltB c e = true) → (∀ e ∈ bs, Mark.ltB c e = true) →
      ∀ x ∈ sweepAux f as bs a b o, Mark.ltB c x = true := by
  intro as bs a b o
  induction as, bs, a, b, o using sweepAux.induct (f := f) with
  | x_1 => infer_instance
  | case1 =>
    intro c _ _ x hx
    rw [sweepAux] at hx
    cases hx
  | case2 ea as a b o ih =>
    intro c h1 h2 x hx
    rw [sweepAux] at hx
    rcases mem_if_cons hx with rfl | hx
    · exact h1 x (List.mem_cons_self x as)
    · exact ih c (fun e he => h1 e (List.mem_cons_of_mem _ he)) h2 x hx
  | case3 eb bs a b o ih =>
    intro c h1 h2 x hx
    rw [sweepAux] at hx
    rcases mem_if_cons hx with rfl | hx
    · exact h2 x (List.mem_cons_self x bs)
    · exact ih c h1 (fun e he => h2 e (List.mem_cons_of_mem _ he)) x hx
  | case4 ea as eb bs a b o hab ih =>
    intro c h1 h2 x hx
    rw [sweepAux] at hx
    simp only [hab] at hx
    rcases mem_if_cons hx with rfl | hx
    · exact h1 x (List.mem_cons_self x as)
    · exact ih c (fun e he => h1 e (List.mem_cons_of_mem _ he)) h2 x hx
  | case5 ea as eb bs a b o hab hba ih =>
    intro c h1 h2 x hx
    have hab' : Mark.ltB ea eb = false := by simpa using hab
    rw [sweepAux] at hx
    simp only [hab', hba] at hx
    rcases mem_if_cons hx with rfl | hx
    · exact h2 x (List.mem_cons_self x bs)
    · exact ih c h1 (fun e he => h2 e (List.mem_cons_of_mem _ he)) x hx
  | case6 ea as eb bs a b o hab hba ih =>
    intro c h1 h2 x hx
    have hab' : Mark.ltB ea eb = false := by simpa using hab
    have hba' : Mark.ltB eb ea = false := by simpa using hba
    rw [sweepAux] at hx
    simp only [hab', hba'] at hx
    rcases mem_if_cons hx with rfl | hx
    · exact h1 x (List.mem_cons_self x as)
    · exact ih c (fun e he => h1 e (List.mem_cons_of_mem _ he))
        (fun e he => h2 e (List.mem_cons_of_mem _ he)) x hx

theorem sweepAux_sorted (f : Bool → Bool → Bool) :
    ∀ (as bs : List (Mark α)) (a b o : Bool),
      SortedM as → SortedM bs → SortedM (sweepAux f as bs a b o) := by
  intro as bs a b o
  induction as, bs, a, b, o using sweepAux.induct (f := f) with
  | x_1 => infer_instance
  | case1 =>
    intro _ _
    rw [sweepAux]
    exact List.Pairwise.nil
  | case2 ea as a b o ih =>
    intro hsa hsb
    obtain ⟨hhd, hta⟩ := List.pairwise_cons.1 hsa
    rw [sweepAux]
    exact sortedM_if_cons _ (ih hta hsb) (sweepAux_lb f _ _ _ _ _ ea hhd (by simp))
  | case3 eb bs a b o ih =>
    intro hsa hsb
    obtain ⟨hhd, htb⟩ := List.pairwise_cons.1 hsb
    rw [sweepAux]
    exact sortedM_if_cons _ (ih hsa htb) (sweepAux_lb f _ _ _ _ _ eb (by simp) hhd)
  | case4 ea as eb bs a b o hab ih =>
    intro hsa hsb
    obtain ⟨hhd, hta⟩ := List.pairwise_cons.1 hsa
    obtain ⟨hhdb, htb⟩ := List.pairwise_cons.1 hsb
    rw [sweepAux]
    simp only [hab]
    refine sortedM_if_cons _ (ih hta hsb) (sweepAux_lb f _ _ _ _ _ ea hhd ?_)
    intro x hx
    simp only [List.mem_cons] at hx
    rcases hx with rfl | hx
    · exact hab
    · exact Mark.ltB_trans hab (hhdb x hx)
  | case5 ea as eb bs a b o hab hba ih =>
    intro hsa hsb
    obtain ⟨hhd, hta⟩ := List.pairwise_cons.1 hsa
    obtain ⟨hhdb, htb⟩ := List.pairwise_cons.1 hsb
    have hab' : Mark.ltB ea eb = false := by simpa using hab
    rw [sweepAux]
    simp only [hab', hba]
    refine sortedM_if_cons _ (ih hsa htb) (sweepAux_lb f _ _ _ _ _ eb ?_ hhdb)
    intro x hx
    simp only [List.mem_cons] at hx
    rcases hx with rfl | hx
    · exact hba
    · exact Mark.ltB_trans hba (hhd x hx)
  | case6 ea as eb bs a b o hab hba ih =>
    intro hsa hsb
    obtain ⟨hhd, hta⟩ := List.pairwise_cons.1 hsa
    obtain ⟨hhdb, htb⟩ := List.pairwise_cons.1 hsb
    have hab' : Mark.ltB ea eb = false := by simpa using hab
    have hba' : Mark.ltB eb ea = false := by simpa using hba
    have heq : ea = eb := Mark.eq_of_not_ltB hab' hba'
    rw [sweepAux]
    simp only [hab', hba']
    refine sortedM_if_cons _ (ih hta htb) (sweepAux_lb f _ _ _ _ _ ea hhd ?_)
    intro x hx
    rw [heq]
    exact hhdb x hx

/-- Toggle a Boolean once per event consumed: the membership state of a
stream after consuming `n` events. -/
def bflip (x : Bool) (n : ℕ) : Bool := if n % 2 = 0 then x else !x

theorem bflip_succ (x : Bool) (n : ℕ) : bflip x (n + 1) = !(bflip x n) := by
  unfold bflip
  by_cases h : n % 2 = 0
  · rw [if_pos h, if_neg (by omega)]
  · rw [if_neg h, if_pos (by omega)]
    simp

theorem bflip_not (x : Bool) (n : ℕ) : bflip (!x) n = !(bflip x n) := by
  unfold bflip
  by_cases h : n % 2 = 0
  · rw [if_pos h, if_pos h]
  · rw [if_neg h, if_neg h]

theorem bflip_even {n : ℕ} (h : n % 2 = 0) (x : Bool) : bflip x n = x := by
  unfold bflip
  rw [if_pos h]

theorem length_if_cons (P : Prop) [Decidable P] (e : Mark α) (L : List (Mark α)) :
    ((if P then [] else [e]) ++ L).length = (if P then 0 else 1) + L.length := by
  by_cases h : P
  · rw [if_pos h, if_pos h]
    simp
  · rw [if_neg h, if_neg h]
    simp [Nat.add_comm]

theorem parity_step (y : ℕ) (o o' F : Bool) (hrec : y % 2 = if F = o' then 0 else 1) :
    ((if o' = o then 0 else 1) + y) % 2 = if F = o then 0 else 1 := by
  rcases o <;> rcases o' <;> rcases F <;> simp_all <;> omega

theorem sweepAux_parity (f : Bool → Bool → Bool) :
    ∀ (as bs : List (Mark α)) (a b o : Bool), o = f a b →
      (sweepAux f as bs a b o).length % 2 =
        if f (bflip a as.length) (bflip b bs.length) = o then 0 else 1 := by
  intro as bs a b o
  induction as, bs, a, b, o using sweepAux.induct (f := f) with
  | x_1 => infer_instance
  | case1 =>
    intro ho
    rw [sweepAux, bflip_even rfl, bflip_even rfl, if_pos ho.symm]
    rfl
  | case2 ea as a b o ih =>
    intro ho
    have h := ih rfl
    rw [bflip_not] at h
    rw [sweepAux, length_if_cons, List.length_cons, bflip_succ]
    exact parity_step _ o _ _ h
  | case3 eb bs a b o ih =>
    intro ho
    have h := ih rfl
    rw [bflip_not] at h
    rw [sweepAux, length_if_cons, List.length_cons, bflip_succ]
    exact parity_step _ o _ _ h
  | case4 ea as eb bs a b o hab ih =>
    intro ho
    have h := ih rfl
    rw [bflip_not] at h
    rw [sweepAux]
    simp only [hab, if_true]
    rw [length_if_cons, List.length_cons, bflip_succ]
    exact parity_step _ o _ _ h
  | case5 ea as eb bs a b o hab hba ih =>
    intro ho
    have h := ih rfl
    rw [bflip_not] at h
    have hab' : Mark.ltB ea eb = false := by simpa using hab
    rw [sweepAux]
    simp only [hab', hba, Bool.false_eq_true, if_false, if_true]
    rw [length_if_cons, show (eb :: bs).length = bs.length + 1 from rfl,
      bflip_succ]
    exact parity_step _ o _ _ h
  | case6 ea as eb bs a b o hab hba ih =>
    intro ho
    have h := ih rfl
    rw [bflip_not, bflip_not] at h
    have hab' : Mark.ltB ea eb = false := by simpa using hab
    have hba' : Mark.ltB eb ea = false := by simpa using hba
    rw [sweepAux]
    simp only [hab', hba', Bool.false_eq_true, if_false, if_true]
    rw [length_if_cons, List.length_cons, List.length_cons, bflip_succ,
      bflip_succ]
    exact parity_step _ o _ _ h

theorem covFrom_if_cons (P : Prop) [Decidable P] (e : Mark α)
    (L : List (Mark α)) (st : Bool) (m : Mark α) :
    covFrom ((if P then [] else [e]) ++ L) st m =
      if P then covFrom L st m else covFrom (e :: L) st m := by
  by_cases h : P
  · rw [if_pos h, if_pos h]
    rfl
  · rw [if_neg h, if_neg h]
    rfl

theorem bool_eq_not_of_ne {x y : Bool} (h : ¬x = y) : x = !y := by
  rcases x <;> rcases y <;> simp_all

theorem covFrom_nil (st : Bool) (m : Mark α) :
    covFrom ([] : List (Mark α)) st m = st := rfl

theorem covFrom_cons (e : Mark α) (es : List (Mark α)) (st : Bool) (m : Mark α) :
    covFrom (e :: es) st m =
      if Mark.ltB m e = true then st else covFrom es (!st) m := rfl

/-- Correctness of the sweep: the output event stream describes, at every
mark, exactly the Boolean operator applied to the two input coverages. -/
theorem sweepAux_cover (f : Bool → Bool → Bool) :
    ∀ (as bs : List (Mark α)) (a b o : Bool), SortedM as → SortedM bs →
      o = f a b → ∀ m,
      covFrom (sweepAux f as bs a b o) o m =
        f (covFrom as a m) (covFrom bs b m) := by
  intro as bs a b o
  induction as, bs, a, b, o using sweepAux.induct (f := f) with
  | x_1 => infer_instance
  | case1 =>
    intro _ _ ho m
    rw [sweepAux, covFrom_nil, covFrom_nil, covFrom_nil]
    exact ho
  | case2 ea as a b o ih =>
    intro hsa hsb ho m
    obtain ⟨hhd, hta⟩ := List.pairwise_cons.1 hsa
    rw [sweepAux, covFrom_if_cons, covFrom_nil]
    by_cases hm : Mark.ltB m ea = true
    · have hA : covFrom (ea :: as) a m = a := by
        rw [covFrom_cons, if_pos hm]
      rw [hA, ← ho]
      by_cases ho' : f (!a) b = o
      · rw [if_pos ho']
        refine covFrom_stable ?_ o
        intro e he
        exact Mark.ltB_trans hm
          (sweepAux_lb f as [] (!a) b (f (!a) b) ea hhd (by simp) e he)
      · rw [if_neg ho', covFrom_cons, if_pos hm]
    · have hA : covFrom (ea :: as) a m = covFrom as (!a) m := by
        rw [covFrom_cons, if_neg hm]
      have IH := ih hta hsb rfl m
      rw [covFrom_nil] at IH
      rw [hA]
      by_cases ho' : f (!a) b = o
      · rw [if_pos ho', ← ho']
        exact IH
      · rw [if_neg ho', covFrom_cons, if_neg hm,
          show (!o) = f (!a) b from (bool_eq_not_of_ne ho').symm]
        exact IH
  | case3 eb bs a b o ih =>
    intro hsa hsb ho m
    obtain ⟨hhd, htb⟩ := List.pairwise_cons.1 hsb
    rw [sweepAux, covFrom_if_cons, covFrom_nil]
    by_cases hm : Mark.ltB m eb = true
    · have hB : covFrom (eb :: bs) b m = b := by
        rw [covFrom_cons, if_pos hm]
      rw [hB, ← ho]
      by_cases ho' : f a (!b) = o
      · rw [if_pos ho']
        refine covFrom_stable ?_ o
        intro e he
        exact Mark.ltB_trans hm
          (sweepAux_lb f [] bs a (!b) (f a (!b)) eb (by simp) hhd e he)
      · rw [if_neg ho', covFrom_cons, if_pos hm]
    · have hB : covFrom (eb :: bs) b m = covFrom bs (!b) m := by
        rw [covFrom_cons, if_neg hm]
      have IH := ih hsa htb rfl m
      rw [covFrom_nil] at IH
      rw [hB]
      by_cases ho' : f a (!b) = o
      · rw [if_pos ho', ← ho']
        exact IH
      · rw [if_neg ho', covFrom_cons, if_neg hm,
          show (!o) = f a (!b) from (bool_eq_not_of_ne ho').symm]
        exact IH
  | case4 ea as eb bs a b o hab ih =>
    intro hsa hsb ho m
    obtain ⟨hhd, hta⟩ := List.pairwise_cons.1 hsa
    obtain ⟨hhdb, htb⟩ := List.pairwise_cons.1 hsb
    rw [sweepAux]
    simp only [hab, if_true]
    rw [covFrom_if_cons]
    by_cases hm : Mark.ltB m ea = true
    · have hmb : Mark.ltB m eb = true := Mark.ltB_trans hm hab
      have hA : covFrom (ea :: as) a m = a := by
        rw [covFrom_cons, if_pos hm]
      have hB : covFrom (eb :: bs) b m = b := by
        rw [covFrom_cons, if_pos hmb]
      rw [hA, hB, ← ho]
      by_cases ho' : f (!a) b = o
      · rw [if_pos ho']
        refine covFrom_stable ?_ o
        intro e he
        refine Mark.ltB_trans hm
          (sweepAux_lb f as (eb :: bs) (!a) b (f (!a) b) ea hhd ?_ e he)
        intro x hx
        rcases List.mem_cons.1 hx with rfl | hx
        · exact hab
        · exact Mark.ltB_trans hab (hhdb x hx)
      · rw [if_neg ho', covFrom_cons, if_pos hm]
    · have hA : covFrom (ea :: as) a m = covFrom as (!a) m := by
        rw [covFrom_cons, if_neg hm]
      have IH := ih hta hsb rfl m
      rw [hA]
      by_cases ho' : f (!a) b = o
      · rw [if_pos ho', ← ho']
        exact IH
      · rw [if_neg ho', covFrom_cons, if_neg hm,
          show (!o) = f (!a) b from (bool_eq_not_of_ne ho').symm]
        exact IH
  | case5 ea as eb bs a b o hab hba ih =>
    intro hsa hsb ho m
    obtain ⟨hhd, hta⟩ := List.pairwise_cons.1 hsa
    obtain ⟨hhdb, htb⟩ := List.pairwise_cons.1 hsb
    have hab' : Mark.ltB ea eb = false := by simpa using hab
    rw [sweepAux]
    simp only [hab', hba, Bool.false_eq_true, if_false, if_true]
    rw [covFrom_if_cons]
    by_cases hm : Mark.ltB m eb = true
    · have hma : Mark.ltB m ea = true := Mark.ltB_trans hm hba
      have hA : covFrom (ea :: as) a m = a := by
        rw [covFrom_cons, if_pos hma]
      have hB : covFrom (eb :: bs) b m = b := by
        rw [covFrom_cons, if_pos hm]
      rw [hA, hB, ← ho]
      by_cases ho' : f a (!b) = o
      · rw [if_pos ho']
        refine covFrom_stable ?_ o
        intro e he
        refine Mark.ltB_trans hm
          (sweepAux_lb f (ea :: as) bs a (!b) (f a (!b)) eb ?_ hhdb e he)
        intro x hx
        rcases List.mem_cons.1 hx with rfl | hx
        · exact hba
        · exact Mark.ltB_trans hba (hhd x hx)
      · rw [if_neg ho', covFrom_cons, if_pos hm]
    · have hB : covFrom (eb :: bs) b m = covFrom bs (!b) m := by
        rw [covFrom_cons, if_neg hm]
      have IH := ih hsa htb rfl m
      rw [hB]
      by_cases ho' : f a (!b) = o
      · rw [if_pos ho', ← ho']
        exact IH
      · rw [if_neg ho', covFrom_cons, if_neg hm,
          show (!o) = f a (!b) from (bool_eq_not_of_ne ho').symm]
        exact IH
  | case6 ea as eb bs a b o hab hba ih =>
    intro hsa hsb ho m
    obtain ⟨hhd, hta⟩ := List.pairwise_cons.1 hsa
    obtain ⟨hhdb, htb⟩ := List.pairwise_cons.1 hsb
    have hab' : Mark.ltB ea eb = false := by simpa using hab
    have hba' : Mark.ltB eb ea = false := by simpa using hba
    have heq : ea = eb := Mark.eq_of_not_ltB hab' hba'
    rw [sweepAux]
    simp only [hab', hba', Bool.false_eq_true, if_false]
    rw [covFrom_if_cons]
    by_cases hm : Mark.ltB m ea = true
    · have hmb : Mark.ltB m eb = true := heq ▸ hm
      have hA : covFrom (ea :: as) a m = a := by
        rw [covFrom_cons, if_pos hm]
      have hB : covFrom (eb :: bs) b m = b := by
        rw [covFrom_cons, if_pos hmb]
      rw [hA, hB, ← ho]
      by_cases ho' : f (!a) (!b) = o
      · rw [if_pos ho']
        refine covFrom_stable ?_ o
        intro e he
        refine Mark.ltB_trans hm
          (sweepAux_lb f as bs (!a) (!b) (f (!a) (!b)) ea hhd ?_ e he)
        intro x hx
        rw [heq]
        exact hhdb x hx
      · rw [if_neg ho', covFrom_cons, if_pos hm]
    · have hmb : ¬Mark.ltB m eb = true := heq ▸ hm
      have hA : covFrom (ea :: as) a m = covFrom as (!a) m := by
        rw [covFrom_cons, if_neg hm]
      have hB : covFrom (eb :: bs) b m = covFrom bs (!b) m := by
        rw [covFrom_cons, if_neg hmb]
      have IH := ih hta htb rfl m
      rw [hA, hB]
      by_cases ho' : f (!a) (!b) = o
      · rw [if_pos ho', ← ho']
        exact IH
      · rw [if_neg ho', covFrom_cons, if_neg hm,
          show (!o) = f (!a) (!b) from (bool_eq_not_of_ne ho').symm]
        exact IH

/-- Modelled from the spec (§4.3): binary set algebra between two canonical
sequences as a single forward merge/sweep over both boundary-event streams,
parametrized by the Boolean output operator (OR / AND / AND-NOT / XOR),
re-normalizing the output on the fly. -/
def mergeScan (f : Bool → Bool → Bool) (A B : List (Interval α)) :
    List (Interval α) :=
  toIntervals (sweepAux f (evts A) (evts B) false false false)

theorem mergeScan_canon (f : Bool → Bool → Bool) {A B : List (Interval α)}
    (hA : Canon A) (hB : Canon B) : Canon (mergeScan f A B) :=
  toIntervals_canon _
    (sweepAux_sorted f _ _ _ _ _ (evts_sorted hA) (evts_sorted hB))

theorem mergeScan_cover (f : Bool → Bool → Bool) (hf : f false false = false)
    {A B : List (Interval α)} (hA : Canon A) (hB : Canon B) (m : Mark α) :
    cover (mergeScan f A B) m = f (cover A m) (cover B m) := by
  unfold mergeScan
  have hsorted := sweepAux_sorted f (evts A) (evts B) false false false
    (evts_sorted hA) (evts_sorted hB)
  have heven : (sweepAux f (evts A) (evts B) false false false).length % 2 = 0 := by
    rw [sweepAux_parity f _ _ _ _ _ hf.symm, bflip_even (evts_length_even A),
      bflip_even (evts_length_even B), if_pos hf]
  rw [cover_toIntervals _ hsorted heven m,
    sweepAux_cover f _ _ _ _ _ (evts_sorted hA) (evts_sorted hB) hf.symm m,
    covFrom_evts hA m, covFrom_evts hB m]

/-- Union of two canonical sequences (`FrozenIntervalSet.__or__`). -/
def union (A B : List (Interval α)) : List (Interval α) :=
  mergeScan (fun x y => x || y) A B

/-- Intersection of two canonical sequences (`FrozenIntervalSet.__and__`). -/
def intersection (A B : List (Interval α)) : List (Interval α) :=
  mergeScan (fun x y => x && y) A B

/-- Difference of two canonical sequences (`FrozenIntervalSet.__sub__`). -/
def difference (A B : List (Interval α)) : List (Interval α) :=
  mergeScan (fun x y => x && !y) A B

/-- Symmetric difference of two canonical sequences
(`FrozenIntervalSet.__xor__`). -/
def symmetric_difference (A B : List (Interval α)) : List (Interval α) :=
  mergeScan (fun x y => xor x y) A B

/-- Modelled from the spec (§4.3): insertion/normalization of one non-empty
atomic interval into a canonical sequence — locate the insertion window, merge
every member that overlaps or is "near" the new interval into a single run,
and splice the merged run in place.  The O(log n) binary-search locate of the
spec is realized here as a structural scan with the same result; this is the
sole primitive used to build a canonical sequence from unsorted input. -/
def addI (v : Interval α) : List (Interval α) → List (Interval α)
  | [] => [v]
  | x :: xs =>
    if gapB x.upper v.lower = true then x :: addI v xs
    else if gapB v.upper x.lower = true then v :: x :: xs
    else
      addI ⟨if Mark.leB v.lower x.lower = true then v.lower else x.lower,
            if Mark.leB v.upper x.upper = true then x.upper else v.upper⟩ xs

theorem addI_gap :
    ∀ (v : Interval α) (c : Mark α) (xs : List (Interval α)),
      (∀ j ∈ xs, gapB c j.lower = true) → gapB c v.lower = true →
      ∀ j ∈ addI v xs, gapB c j.lower = true
  | v, c, [], _, hv, j, hj => by
    rw [addI] at hj
    rcases List.mem_singleton.1 hj with rfl
    exact hv
  | v, c, x :: xs, hxs, hv, j, hj => by
    rw [addI] at hj
    by_cases h1 : gapB x.upper v.lower = true
    · simp only [h1, if_true] at hj
      rcases List.mem_cons.1 hj with rfl | hj
      · exact hxs j (List.mem_cons_self j xs)
      · exact addI_gap v c xs (fun k hk => hxs k (List.mem_cons_of_mem _ hk))
          hv j hj
    · have h1' : gapB x.upper v.lower = false := by simpa using h1
      simp only [h1', Bool.false_eq_true, if_false] at hj
      by_cases h2 : gapB v.upper x.lower = true
      · simp only [h2, if_true] at hj
        rcases List.mem_cons.1 hj with rfl | hj
        · exact hv
        · exact hxs j hj
      · have h2' : gapB v.upper x.lower = false := by simpa using h2
        simp only [h2', Bool.false_eq_true, if_false] at hj
        refine addI_gap _ c xs (fun k hk => hxs k (List.mem_cons_of_mem _ hk))
          ?_ j hj
        show gapB c (if Mark.leB v.lower x.lower = true then v.lower else x.lower) = true
        by_cases h3 : Mark.leB v.lower x.lower = true
        · rw [if_pos h3]; exact hv
        · rw [if_neg h3]; exact hxs x (List.mem_cons_self x xs)

theorem addI_canon :
    ∀ (v : Interval α) (s : List (Interval α)), v.nonemptyB = true → Canon s →
      Canon (addI v s)
  | v, [], hv, _ => by
    rw [addI]
    exact Canon.cons_iff.2 ⟨hv, by simp, Canon.nil⟩
  | v, x :: xs, hv, hc => by
    obtain ⟨hnex, hgap, hcxs⟩ := Canon.cons_iff.1 hc
    rw [addI]
    by_cases h1 : gapB x.upper v.lower = true
    · simp only [h1, if_true]
      exact Canon.cons_iff.2 ⟨hnex, addI_gap v x.upper xs hgap h1,
        addI_canon v xs hv hcxs⟩
    · have h1' : gapB x.upper v.lower = false := by simpa using h1
      simp only [h1', Bool.false_eq_true, if_false]
      by_cases h2 : gapB v.upper x.lower = true
      · simp only [h2, if_true]
        refine Canon.cons_iff.2 ⟨hv, ?_, hc⟩
        intro j hj
        rcases List.mem_cons.1 hj with rfl | hj
        · exact h2
        · exact gapB_trans_le h2 hnex (hgap j hj)
      · have h2' : gapB v.upper x.lower = false := by simpa using h2
        simp only [h2', Bool.false_eq_true, if_false]
        refine addI_canon _ xs ?_ hcxs
        show Mark.leB (if Mark.leB v.lower x.lower = true then v.lower else x.lower)
          (if Mark.leB v.upper x.upper = true then x.upper else v.upper) = true
        by_cases h3 : Mark.leB v.lower x.lower = true
        · rw [if_pos h3]
          by_cases h4 : Mark.leB v.upper x.upper = true
          · rw [if_pos h4]
            exact Mark.leB_trans hv h4
          · rw [if_neg h4]
            exact hv
        · rw [if_neg h3]
          have h3' : Mark.leB x.lower v.lower = true :=
            Mark.leB_of_not_leB (by simpa using h3)
          by_cases h4 : Mark.leB v.upper x.upper = true
          · rw [if_pos h4]
            exact hnex
          · rw [if_neg h4]
            exact Mark.leB_trans h3' hv

theorem Canon.sublist {s t : List (Interval α)} (h : Canon t)
    (hsub : s.Sublist t) : Canon s :=
  ⟨fun i hi => h.1 i (hsub.subset hi), List.Pairwise.sublist hsub h.2⟩

theorem Canon.erase [DecidableEq α] {s : List (Interval α)} (h : Canon s)
    (i : Interval α) : Canon (s.erase i) :=
  Canon.sublist h (List.erase_sublist i s)

/-- Modelled from the spec (§3): an atomic interval is either the
distinguished Empty variant or a NonEmpty interval between two marks
(classes `Empty` and `Interval` of `part.atomic`). -/
inductive Atomic (α : Type) where
  | empty
  | interval (i : Interval α)
deriving DecidableEq

/-- The host-language exception classes surfaced by the public API, as
exercised by the notebook: `KeyError` (caught around
`MutableIntervalSet.remove` and `FrozenIntervalDict.__getitem__` misses) and
`ValueError` (invalid bounds at construction). -/
inductive PyExc where
  | keyError
  | valueError
deriving DecidableEq

/-- Modelled from the spec (§6, §9): the closed sum of interval-like
construction inputs — a bare boundary value, a `(lower, upper)` pair, a
`(lower, upper, lower_closed)` triple, a four-tuple with both closure flags,
or an already-built atomic interval.  `none` as a bound denotes the missing
(infinite) bound; `none` as a closure flag denotes an open endpoint, matching
the stub defaults `lower_limit(closed=True)` / `upper_limit(closed=None)`. -/
inductive IntervalLike (α : Type) where
  | value (a : α)
  | pair (l u : Option α)
  | triple (l u : Option α) (lc : Option Bool)
  | quad (l u : Option α) (lc uc : Option Bool)
  | atomic (a : Atomic α)
deriving DecidableEq

/-- Effective lower boundary value under the None-as-minus-infinity
convention. -/
def lowerIVal (l : Option α) : IVal α :=
  match l with
  | none => IVal.ninf
  | some a => IVal.point a

/-- Effective upper boundary value under the None-as-plus-infinity
convention. -/
def upperIVal (u : Option α) : IVal α :=
  match u with
  | none => IVal.pinf
  | some a => IVal.point a

/-- Lower mark of a constructed interval: an infinite lower bound is open; a
finite closed bound sits exactly at its value, an open one just above it. -/
def lowerMark (l : Option α) (closed : Bool) : Mark α :=
  match l with
  | none => ⟨IVal.ninf, 1⟩
  | some a => ⟨IVal.point a, if closed then 0 else 1⟩

/-- Upper mark of a constructed interval: an infinite upper bound is open; a
finite closed bound sits exactly at its value, an open one just below it. -/
def upperMark (u : Option α) (closed : Bool) : Mark α :=
  match u with
  | none => ⟨IVal.pinf, -1⟩
  | some a => ⟨IVal.point a, if closed then 0 else -1⟩

/-- Modelled from the spec (§4.2 `from_bounds`, realized by
`Interval.__init__`): construction from explicit bounds fails (Python
`ValueError`, the spec's `InvalidBoundsError`) exactly when the lower value
strictly exceeds the upper value under the value order, after the
None-as-infinity convention. -/
def from_bounds (l u : Option α) (lc uc : Bool) : Except PyExc (Interval α) :=
  if IVal.leB (lowerIVal l) (upperIVal u) = true then
    Except.ok ⟨lowerMark l lc, upperMark u uc⟩
  else Except.error PyExc.valueError

/-- Modelled from the spec (§4.2): `from_value(v)` builds the degenerate
closed interval `[v, v]`. -/
def from_value (a : α) : Atomic α :=
  Atomic.interval ⟨⟨IVal.point a, 0⟩, ⟨IVal.point a, 0⟩⟩

/-- A closure flag: `None` (or `False`) is open, `True` is closed, matching
the stub signatures (`Optional[bool]` flags with `upper_limit(closed=None)`
open by default). -/
def closedOf (fl : Option Bool) : Bool := fl.getD false

/-- Modelled from the spec (§6, §9) and the stub defaults: boundary coercion
of an interval-like value (`Atomic.from_tuple` / `Interval.from_tuple` for the
tuple forms).  A bare pair is lower-closed and upper-open (the half-open range
convention); a missing third or fourth element leaves the corresponding
endpoint at its default (lower closed, upper open). -/
def coerce : IntervalLike α → Except PyExc (Atomic α)
  | IntervalLike.value a => Except.ok (from_value a)
  | IntervalLike.pair l u => (from_bounds l u true false).map Atomic.interval
  | IntervalLike.triple l u lc =>
    (from_bounds l u (closedOf lc) false).map Atomic.interval
  | IntervalLike.quad l u lc uc =>
    (from_bounds l u (closedOf lc) (closedOf uc)).map Atomic.interval
  | IntervalLike.atomic a => Except.ok a

/-- Insertion of one interval-like value (`MutableIntervalSet.add`, and the
construction primitive): coerce, then normalize into the canonical sequence;
inserting an empty interval leaves the set unchanged, and a coercion failure
propagates to the caller leaving the set unchanged. -/
def applyAdd (v : IntervalLike α) (s : List (Interval α)) :
    List (Interval α) :=
  match coerce v with
  | Except.error _ => s
  | Except.ok Atomic.empty => s
  | Except.ok (Atomic.interval i) =>
    if i.nonemptyB = true then addI i s else s

/-- Construction of an interval set from an arbitrary (unordered, possibly
overlapping) iterable of interval-like values by repeated insertion
(`FrozenIntervalSet.__init__` / `MutableIntervalSet.__init__`, §3
lifecycle). -/
def fromIterable (input : List (IntervalLike α)) : List (Interval α) :=
  input.foldl (fun s v => applyAdd v s) []

/-- Modelled from the spec (§4.4): `MutableIntervalSet.remove` fails (with the
exact-match set semantics) unless the coerced value is identical to one of the
canonical members; it never removes points by containment.  The notebook
catches the failure as a `KeyError`. -/
def remove (v : IntervalLike α) (s : List (Interval α)) :
    Except PyExc (List (Interval α)) :=
  match coerce v with
  | Except.error e => Except.error e
  | Except.ok Atomic.empty => Except.error PyExc.keyError
  | Except.ok (Atomic.interval i) =>
    if i ∈ s then Except.ok (s.erase i) else Except.error PyExc.keyError

/-- Modelled from the spec (§4.4): `MutableIntervalSet.discard` is the soft
variant of `remove` — a no-op if the exact member is absent. -/
def discard (v : IntervalLike α) (s : List (Interval α)) :
    List (Interval α) :=
  match coerce v with
  | Except.ok (Atomic.interval i) => s.erase i
  | _ => s

/-- One element-level mutation of a mutable interval set. -/
inductive SetOp (α : Type) where
  | add (v : IntervalLike α)
  | remove (v : IntervalLike α)
  | discard (v : IntervalLike α)

/-- Apply one mutation; a failing `remove` raises and leaves the sequence
unchanged. -/
def applyOp (o : SetOp α) (s : List (Interval α)) : List (Interval α) :=
  match o with
  | SetOp.add v => applyAdd v s
  | SetOp.remove v =>
    match remove v s with
    | Except.ok t => t
    | Except.error _ => s
  | SetOp.discard v => discard v s

/-- Apply a sequence of insertions and removals. -/
def applyOps (ops : List (SetOp α)) (s : List (Interval α)) :
    List (Interval α) :=
  ops.foldl (fun s o => applyOp o s) s

theorem applyAdd_canon (v : IntervalLike α) {s : List (Interval α)}
    (h : Canon s) : Canon (applyAdd v s) := by
  unfold applyAdd
  rcases hco : coerce v with e | a
  · exact h
  · rcases a with _ | i
    · exact h
    · show Canon (if i.nonemptyB = true then addI i s else s)
      by_cases hi : i.nonemptyB = true
      · rw [if_pos hi]
        exact addI_canon i s hi h
      · rw [if_neg hi]
        exact h

theorem applyOp_canon (o : SetOp α) {s : List (Interval α)} (h : Canon s) :
    Canon (applyOp o s) := by
  rcases o with v | v | v
  · exact applyAdd_canon v h
  · show Canon (match remove v s with
      | Except.ok t => t
      | Except.error _ => s)
    unfold remove
    rcases hco : coerce v with e | a
    · exact h
    · rcases a with _ | i
      · exact h
      · show Canon (match (if i ∈ s then Except.ok (s.erase i)
            else Except.error PyExc.keyError : Except PyExc (List (Interval α))) with
          | Except.ok t => t
          | Except.error _ => s)
        by_cases hi : i ∈ s
        · rw [if_pos hi]
          exact h.erase i
        · rw [if_neg hi]
          exact h
  · show Canon (discard v s)
    unfold discard
    rcases hco : coerce v with e | a
    · exact h
    · rcases a with _ | i
      · exact h
      · exact h.erase i

theorem applyOps_canon :
    ∀ (ops : List (SetOp α)) (s : List (Interval α)), Canon s →
      Canon (applyOps ops s)
  | [], _, h => h
  | o :: ops, s, h => applyOps_canon ops (applyOp o s) (applyOp_canon o h)

theorem fromIterable_canon_aux :
    ∀ (input : List (IntervalLike α)) (s : List (Interval α)), Canon s →
      Canon (input.foldl (fun s v => applyAdd v s) s)
  | [], _, h => h
  | v :: input, s, h =>
    fromIterable_canon_aux input (applyAdd v s) (applyAdd_canon v h)

theorem fromIterable_canon (input : List (IntervalLike α)) :
    Canon (fromIterable input) :=
  fromIterable_canon_aux input [] Canon.nil

/-- Point membership of a domain value in an atomic interval:
`x` lies between the two marks. -/
def memP (i : Interval α) (x : α) : Bool :=
  Mark.leB i.lower ⟨IVal.point x, 0⟩ && Mark.leB ⟨IVal.point x, 0⟩ i.upper

theorem canon_sorted_lower {s : List (Interval α)} (h : Canon s) :
    s.Pairwise (fun i j => Mark.ltB i.lower j.lower = true) := by
  refine List.Pairwise.imp_of_mem ?_ h.2
  intro i j hi hj hgap
  exact Mark.ltB_of_leB_of_ltB (h.1 i hi) (ltB_of_gapB hgap)

theorem canon_disjoint {s : List (Interval α)} (h : Canon s) :
    s.Pairwise (fun i j => ∀ x : α, ¬(memP i x = true ∧ memP j x = true)) := by
  refine List.Pairwise.imp_of_mem ?_ h.2
  intro i j _ _ hgap x hx
  obtain ⟨hxi, hxj⟩ := hx
  simp only [memP, Bool.and_eq_true] at hxi hxj
  have hlt : Mark.ltB i.upper i.upper = true :=
    Mark.ltB_of_ltB_of_leB
      (Mark.ltB_of_ltB_of_leB (ltB_of_gapB hgap) hxj.1) hxi.2
  rw [Mark.ltB_irrefl] at hlt
  cases hlt

theorem canon_no_near {s : List (Interval α)} (h : Canon s) :
    s.Chain' (fun i j => Mark.nearB i.upper j.lower = false) := by
  refine List.Chain'.imp ?_ h.2.chain'
  intro i j hgap
  have hq := gapB_eq_ltB_and_not_nearB i.upper j.lower
  rw [hgap] at hq
  rcases hn : Mark.nearB i.upper j.lower with _ | _
  · rfl
  · rw [hn] at hq
    simp at hq

section Dict

variable {V : Type} [DecidableEq V]

/-- Two interval keys merge under compression when the second overlaps or is
"near" the first (§4.5): no gap separates them. -/
def mergeableB (i j : Interval α) : Bool := Mark.leB j.lower i.upper.succ

/-- Canonical interval-dictionary state (§3): non-empty keys, disjoint and
sorted on the interval axis.  Adjacent (near) keys are legal, even with equal
values — compression is explicit, not an invariant. -/
def DictCanon (d : List (Interval α × V)) : Prop :=
  (∀ p ∈ d, p.1.nonemptyB = true) ∧
    d.Pairwise (fun p q => Mark.ltB p.1.upper q.1.lower = true)

instance (d : List (Interval α × V)) : Decidable (DictCanon d) :=
  inferInstanceAs (Decidable (_ ∧ _))

theorem DictCanon.cons_iff_dict {e : Interval α × V} {d : List (Interval α × V)} :
    DictCanon (e :: d) ↔ e.1.nonemptyB = true ∧
      (∀ q ∈ d, Mark.ltB e.1.upper q.1.lower = true) ∧ DictCanon d := by
  unfold DictCanon
  simp only [List.mem_cons, List.pairwise_cons, forall_eq_or_imp]
  tauto

/-- Modelled from the spec (§4.5): `FrozenIntervalDict.compress` (and the
mutable in-place variant) merges each run of adjacent — near or overlapping —
entries whose values are equal into a single larger entry, returning a new
dictionary.  Recursion compresses the tail first, then merges the head entry
with the head of the compressed tail when value and adjacency allow it. -/
def compress : List (Interval α × V) → List (Interval α × V)
  | [] => []
  | e :: rest =>
    match compress rest with
    | [] => [e]
    | f :: t =>
      if e.2 = f.2 ∧ mergeableB e.1 f.1 = true then
        (⟨e.1.lower, f.1.upper⟩, e.2) :: t
      else e :: f :: t

/-- No two adjacent entries of the list would merge under compression. -/
def NoMergeAdj (d : List (Interval α × V)) : Prop :=
  d.Chain' fun p q => ¬(p.2 = q.2 ∧ mergeableB p.1 q.1 = true)

theorem compress_good :
    ∀ d : List (Interval α × V), DictCanon d →
      DictCanon (compress d) ∧ NoMergeAdj (compress d) ∧
        (∀ p ∈ compress d, ∃ q ∈ d, p.1.upper = q.1.upper) ∧
        (∀ p ∈ compress d, ∃ q ∈ d, p.1.lower = q.1.lower)
  | [], _ => by
    refine ⟨⟨by simp [compress], by simp [compress]⟩, ?_, by simp [compress],
      by simp [compress]⟩
    rw [compress]
    exact List.chain'_nil
  | e :: rest, hc => by
    obtain ⟨hne, hgap, hcrest⟩ := DictCanon.cons_iff_dict.1 hc
    obtain ⟨hdc, hnm, hupp, hlow⟩ := compress_good rest hcrest
    cases hcr : compress rest with
    | nil =>
      have hEq : compress (e :: rest) = [e] := by
        rw [compress, hcr]
      rw [hEq]
      refine ⟨⟨?_, by simp⟩, ?_, ?_, ?_⟩
      · intro p hp
        rcases List.mem_singleton.1 hp with rfl
        exact hne
      · exact List.chain'_singleton e
      · intro p hp
        rcases List.mem_singleton.1 hp with rfl
        exact ⟨p, List.mem_cons_self p rest, rfl⟩
      · intro p hp
        rcases List.mem_singleton.1 hp with rfl
        exact ⟨p, List.mem_cons_self p rest, rfl⟩
    | cons f t =>
      have hfmem : f ∈ compress rest := by
        rw [hcr]
        exact List.mem_cons_self f t
      obtain ⟨qf, hqf, hqfEq⟩ := hupp f hfmem
      rw [hcr] at hdc hnm
      by_cases hm : e.2 = f.2 ∧ mergeableB e.1 f.1 = true
      · have hEq : compress (e :: rest) = (⟨e.1.lower, f.1.upper⟩, e.2) :: t := by
          rw [compress, hcr]
          show (if e.2 = f.2 ∧ mergeableB e.1 f.1 = true then
            (⟨e.1.lower, f.1.upper⟩, e.2) :: t else e :: f :: t) = _
          rw [if_pos hm]
        rw [hEq]
        have hgne : Mark.leB e.1.lower f.1.upper = true := by
          rw [hqfEq]
          exact Mark.leB_trans hne (Mark.leB_of_ltB
            (Mark.ltB_of_ltB_of_leB (hgap qf hqf)
              (hc.1 qf (List.mem_cons_of_mem e hqf))))
        obtain ⟨hdcne, hdcgap, hdct⟩ := DictCanon.cons_iff_dict.1 hdc
        refine ⟨DictCanon.cons_iff_dict.2 ⟨hgne, hdcgap, hdct⟩, ?_, ?_, ?_⟩
        · cases t with
          | nil => exact List.chain'_singleton _
          | cons g t' =>
            refine List.chain'_cons.2 ⟨?_, (List.chain'_cons.1 hnm).2⟩
            intro ⟨hv, hmg⟩
            exact (List.chain'_cons.1 hnm).1 ⟨hm.1.symm ▸ hv, hmg⟩
        · intro p hp
          rcases List.mem_cons.1 hp with rfl | hp
          · exact ⟨qf, List.mem_cons_of_mem e hqf, hqfEq⟩
          · obtain ⟨q, hq, hqe⟩ := hupp p (by rw [hcr]; exact List.mem_cons_of_mem f hp)
            exact ⟨q, List.mem_cons_of_mem e hq, hqe⟩
        · intro p hp
          rcases List.mem_cons.1 hp with rfl | hp
          · exact ⟨e, List.mem_cons_self e rest, rfl⟩
          · obtain ⟨q, hq, hqe⟩ := hlow p (by rw [hcr]; exact List.mem_cons_of_mem f hp)
            exact ⟨q, List.mem_cons_of_mem e hq, hqe⟩
      · have hEq : compress (e :: rest) = e :: f :: t := by
          rw [compress, hcr]
          show (if e.2 = f.2 ∧ mergeableB e.1 f.1 = true then
            (⟨e.1.lower, f.1.upper⟩, e.2) :: t else e :: f :: t) = _
          rw [if_neg hm]
        rw [hEq]
        refine ⟨DictCanon.cons_iff_dict.2 ⟨hne, ?_, hdc⟩, List.chain'_cons.2 ⟨hm, hnm⟩,
          ?_, ?_⟩
        · intro q hq
          obtain ⟨ql, hql, hlEq⟩ := hlow q (by rw [hcr]; exact hq)
          rw [hlEq]
          exact hgap ql hql
        · intro p hp
          rcases List.mem_cons.1 hp with rfl | hp
          · exact ⟨p, List.mem_cons_self p rest, rfl⟩
          · obtain ⟨q, hq, hqe⟩ := hupp p (by rw [hcr]; exact hp)
            exact ⟨q, List.mem_cons_of_mem e hq, hqe⟩
        · intro p hp
          rcases List.mem_cons.1 hp with rfl | hp
          · exact ⟨p, List.mem_cons_self p rest, rfl⟩
          · obtain ⟨q, hq, hqe⟩ := hlow p (by rw [hcr]; exact hp)
            exact ⟨q, List.mem_cons_of_mem e hq, hqe⟩

theorem compress_fixed :
    ∀ d : List (Interval α × V), NoMergeAdj d → compress d = d
  | [], _ => rfl
  | e :: rest, h => by
    have hc := compress_fixed rest h.tail
    rw [compress, hc]
    cases rest with
    | nil => rfl
    | cons f t =>
      show (if e.2 = f.2 ∧ mergeableB e.1 f.1 = true then
        (⟨e.1.lower, f.1.upper⟩, e.2) :: t else e :: f :: t) = e :: f :: t
      rw [if_neg (List.chain'_cons.1 h).1]

/-- Modelled from the spec (§4.5): point or sub-interval lookup
(`FrozenIntervalDict.__getitem__`): the coerced key must be contained in a
single entry's interval; otherwise the lookup fails with the host `KeyError`
as exercised by the notebook. -/
def getitem (d : List (Interval α × V)) (k : IntervalLike α) : Except PyExc V :=
  match coerce k with
  | Except.error e => Except.error e
  | Except.ok Atomic.empty => Except.error PyExc.keyError
  | Except.ok (Atomic.interval i) =>
    match d.find? fun p =>
        Mark.leB p.1.lower i.lower && Mark.leB i.upper p.1.upper with
    | some p => Except.ok p.2
    | none => Except.error PyExc.keyError

end Dict

/-- The unbounded interval `(-inf, +inf)` (the default-constructed
`Interval()`), used as the implicit second operand of complement (§4.3). -/
def universal : Interval α := ⟨⟨IVal.ninf, 1⟩, ⟨IVal.pinf, -1⟩⟩

/-- The canonical sequence denoted by one atomic interval. -/
def atomicSeq : Atomic α → List (Interval α)
  | Atomic.empty => []
  | Atomic.interval i => if i.nonemptyB = true then [i] else []

/-- Dynamic result values of the host language relevant to the operator
claims: a bare atomic interval, a frozen (immutable, hashable) interval set,
or a mutable interval set. -/
inductive PyVal (α : Type) where
  | atomicVal (a : Atomic α)
  | frozenSet (s : List (Interval α))
  | mutableSet (s : List (Interval α))

/-- Dynamic type test: is the value a `FrozenIntervalSet`? -/
def PyVal.isFrozenSet : PyVal α → Bool
  | PyVal.frozenSet _ => true
  | _ => false

/-- `Atomic.__or__`: union of two atomic intervals; per the stub it returns a
`FrozenIntervalSet` (the union of two disjoint atomics is not atomic). -/
def Atomic.orOp (a b : Atomic α) : PyVal α :=
  PyVal.frozenSet (union (atomicSeq a) (atomicSeq b))

/-- `Atomic.__and__`: intersection of two atomic intervals, returned as a
`FrozenIntervalSet` per the stub. -/
def Atomic.andOp (a b : Atomic α) : PyVal α :=
  PyVal.frozenSet (intersection (atomicSeq a) (atomicSeq b))

/-- `Atomic.__invert__`: complement `(-inf,+inf) \ a`, returned as a
`FrozenIntervalSet` per the stub (§4.3). -/
def Atomic.invOp (a : Atomic α) : PyVal α :=
  PyVal.frozenSet (difference [universal] (atomicSeq a))

/-- Modelled from the spec (§4.2): strict `meets` — the first interval's upper
mark is exactly "near" the second's lower mark (touching, no overlap);
`strict=False` relaxes mark adjacency to equality of the boundary values. -/
def meetsI (i j : Interval α) (strict : Bool) : Bool :=
  if strict then Mark.nearB i.upper j.lower
  else decide (i.upper.val = j.lower.val)

/-- Allen relation dispatch including the Empty variant: an empty interval
satisfies no relation (§4.2). -/
def meetsCore (a b : Atomic α) (strict : Bool) : Bool :=
  match a, b with
  | Atomic.interval i, Atomic.interval j => meetsI i j strict
  | _, _ => false

/-- `Atomic.meets(other, strict=True, reverse=False)`: with `reverse=True` the
relation is computed with the operand roles swapped (§4.2). -/
def meets (a b : Atomic α) (strict reverse : Bool) : Bool :=
  if reverse then meetsCore b a strict else meetsCore a b strict

/-- Closure flag of the lower endpoint: the lower mark sits exactly at its
value. -/
def Interval.lower_closed (i : Interval α) : Bool := decide (i.lower.type = 0)

/-- Closure flag of the upper endpoint: the upper mark sits exactly at its
value. -/
def Interval.upper_closed (i : Interval α) : Bool := decide (i.upper.type = 0)

/-- The pair of closure flags of a coerced atomic, when it is an interval. -/
def atomicClosures : Atomic α → Option (Bool × Bool)
  | Atomic.interval i => some (i.lower_closed, i.upper_closed)
  | Atomic.empty => none

/-- An interval is covered by an existing atomic member of the sequence when
some member contains it entirely; for a canonical (disjoint, gap-separated)
sequence this is exactly "all its points are covered". -/
def coveredByMember (i : Interval α) (s : List (Interval α)) : Bool :=
  s.any fun j => Mark.leB j.lower i.lower && Mark.leB i.upper j.upper

/-- Concrete executable form of the merge/sweep: run the fuelled sweep with
fuel covering both event streams. -/
theorem mergeScan_exec (f : Bool → Bool → Bool) (A B : List (Interval α)) :
    mergeScan f A B =
      toIntervals (sweepExec f ((evts A).length + (evts B).length)
        (evts A) (evts B) false false false) := by
  rw [mergeScan, sweepExec_eq]
  exact le_refl _

section ConcreteInstances

/-- The notebook's mutable set `[2, (6, 7), (8, 10, None), (11, 13, True,
True)]` over the integers. -/
def sNB : List (Interval ℤ) :=
  fromIterable [IntervalLike.value 2, IntervalLike.pair (some 6) (some 7),
    IntervalLike.triple (some 8) (some 10) none,
    IntervalLike.quad (some 11) (some 13) (some true) (some true)]

/-- The notebook's dictionary `{(10, 15): 1, (20, 25): 2, (30, 35): 3}`. -/
def dNB : List (Interval ℤ × ℤ) :=
  [(⟨⟨IVal.point 10, 0⟩, ⟨IVal.point 15, -1⟩⟩, 1),
   (⟨⟨IVal.point 20, 0⟩, ⟨IVal.point 25, -1⟩⟩, 2),
   (⟨⟨IVal.point 30, 0⟩, ⟨IVal.point 35, -1⟩⟩, 3)]

/-- A set whose single member `[0; 10)` strictly covers the interval
`[2; 8)` without being identical to it. -/
def sCov : List (Interval ℤ) :=
  fromIterable [IntervalLike.pair (some 0) (some 10)]

/-- The interval `[2; 8)`, the coercion of the tuple `(2, 8)`. -/
def iPair28 : Interval ℤ := ⟨⟨IVal.point 2, 0⟩, ⟨IVal.point 8, -1⟩⟩

/-- A small canonical operand for the set-algebra law checks. -/
def wSetA : List (Interval ℤ) := fromIterable [IntervalLike.pair (some 0) (some 4)]

/-- A second small canonical operand for the set-algebra law checks. -/
def wSetB : List (Interval ℤ) := fromIterable [IntervalLike.pair (some 2) (some 9)]

/-- An already-canonical dictionary with two near equal-valued entries
`{[10; 15): 1, [15; 25): 1}` (the compressed form of the spec's compression
example `{(10, 15): 1, (14, 25): 1}`). -/
def dC7 : List (Interval ℤ × ℤ) :=
  [(⟨⟨IVal.point 10, 0⟩, ⟨IVal.point 15, -1⟩⟩, 1),
   (⟨⟨IVal.point 15, 0⟩, ⟨IVal.point 25, -1⟩⟩, 1)]

end ConcreteInstances

/-- Claim C1: for every interval set — frozen or mutable, both of which reach
their state through the same canonical construction and mutation primitives —
built from any iterable of interval-like values, and for every sequence of
insertions and removals applied to it, the resulting internal sequence of
atomic intervals is sorted ascending by lower mark, pairwise disjoint on
domain points, and contains no two consecutive near (adjacent) intervals. -/
theorem c1_canonical_invariant (input : List (IntervalLike α))
    (ops : List (SetOp α)) :
    (applyOps ops (fromIterable input)).Pairwise
        (fun i j => Mark.ltB i.lower j.lower = true) ∧
      (applyOps ops (fromIterable input)).Pairwise
        (fun i j => ∀ x : α, ¬(memP i x = true ∧ memP j x = true)) ∧
      (applyOps ops (fromIterable input)).Chain'
        (fun i j => Mark.nearB i.upper j.lower = false) := by
  have h := applyOps_canon ops (fromIterable input) (fromIterable_canon input)
  exact ⟨canon_sorted_lower h, canon_disjoint h, canon_no_near h⟩

/-- Claim C2, counterexample: coercing the plain pair `(10, 20)` — both
closure flags absent — yields a lower-closed, upper-OPEN interval, and an
explicit `None` lower flag in `(10, 20, None)` yields an OPEN lower endpoint;
this refutes "a closure flag that is None or absent defaults to both
endpoints being closed" at these inputs. -/
theorem c2_closure_counterexample :
    ((coerce (IntervalLike.pair (some (10 : ℤ)) (some 20))).toOption.bind
        atomicClosures = some (true, false)) ∧
      ((coerce (IntervalLike.triple (some (10 : ℤ)) (some 20) none)).toOption.bind
        atomicClosures = some (false, false)) :=
  ⟨rfl, rfl⟩

/-- Claim C2 as amended: construction-time coercion follows the half-open
convention of §4.2 and the stub defaults — a bare pair is lower-closed and
upper-open; an absent fourth element leaves the upper endpoint open; an
explicit closure flag yields a closed endpoint exactly when it is `True`, so
a `None` flag means open, not closed. -/
theorem c2_closure_defaults (l u : α) (h : l ≤ u) (lc uc : Option Bool) :
    ((coerce (IntervalLike.pair (some l) (some u))).toOption.bind
        atomicClosures = some (true, false)) ∧
      ((coerce (IntervalLike.triple (some l) (some u) lc)).toOption.bind
        atomicClosures = some (closedOf lc, false)) ∧
      ((coerce (IntervalLike.quad (some l) (some u) lc uc)).toOption.bind
        atomicClosures = some (closedOf lc, closedOf uc)) := by
  have hle : IVal.leB (lowerIVal (some l)) (upperIVal (some u)) = true := by
    simp [lowerIVal, upperIVal, IVal.leB, h]
  refine ⟨?_, ?_, ?_⟩
  · show ((from_bounds (some l) (some u) true false).map
      Atomic.interval).toOption.bind atomicClosures = some (true, false)
    unfold from_bounds
    rw [if_pos hle]
    rfl
  · show ((from_bounds (some l) (some u) (closedOf lc) false).map
      Atomic.interval).toOption.bind atomicClosures = some (closedOf lc, false)
    unfold from_bounds
    rw [if_pos hle]
    rcases closedOf lc with _ | _
    · rfl
    · rfl
  · show ((from_bounds (some l) (some u) (closedOf lc) (closedOf uc)).map
      Atomic.interval).toOption.bind atomicClosures
      = some (closedOf lc, closedOf uc)
    unfold from_bounds
    rw [if_pos hle]
    rcases closedOf lc with _ | _ <;> rcases closedOf uc with _ | _
    · rfl
    · rfl
    · rfl
    · rfl

/-- Claim C2 amended, witness at the concrete input `(10, 20)` with `None`
flags over the integers. -/
theorem c2_closure_defaults_witness :
    ((coerce (IntervalLike.pair (some (10 : ℤ)) (some 20))).toOption.bind
        atomicClosures = some (true, false)) ∧
      ((coerce (IntervalLike.triple (some (10 : ℤ)) (some 20) none)).toOption.bind
        atomicClosures = some (closedOf none, false)) ∧
      ((coerce (IntervalLike.quad (some (10 : ℤ)) (some 20) none none)).toOption.bind
        atomicClosures = some (closedOf none, closedOf none)) :=
  c2_closure_defaults 10 20 (by decide) none none

/-- Claim C3: `MutableIntervalSet.remove` fails — with the exception the
notebook catches as `KeyError` — exactly when the coerced value is not
identical to one of the set's atomic members; when it succeeds it removes
exactly that member; in particular a value merely covered by an existing
member but not identical to one makes it fail, so it never removes points by
containment. -/
theorem c3_remove_exact_member (s : List (Interval α)) (v : IntervalLike α)
    (i : Interval α) (hco : coerce v = Except.ok (Atomic.interval i)) :
    (remove v s = Except.error PyExc.keyError ↔ i ∉ s) ∧
      (i ∈ s → remove v s = Except.ok (s.erase i)) ∧
      (coveredByMember i s = true ∧ i ∉ s →
        remove v s = Except.error PyExc.keyError) := by
  unfold remove
  rw [hco]
  show ((if i ∈ s then Except.ok (s.erase i) else Except.error PyExc.keyError)
        = Except.error PyExc.keyError ↔ i ∉ s) ∧
      (i ∈ s → (if i ∈ s then Except.ok (s.erase i)
        else Except.error PyExc.keyError) = Except.ok (s.erase i)) ∧
      (coveredByMember i s = true ∧ i ∉ s →
        (if i ∈ s then Except.ok (s.erase i)
          else Except.error PyExc.keyError) = Except.error PyExc.keyError)
  refine ⟨?_, ?_, ?_⟩
  · by_cases hi : i ∈ s
    · rw [if_pos hi]
      simp [hi]
    · rw [if_neg hi]
      simp [hi]
  · intro hi
    rw [if_pos hi]
  · intro hcov
    rw [if_neg hcov.2]

/-- Claim C3, witness: the tuple `(2, 8)` is covered by the set built from
`[(0, 10)]` but not identical to its member, and removing it fails. -/
theorem c3_remove_witness :
    coveredByMember iPair28 sCov = true ∧ iPair28 ∉ sCov ∧
      remove (IntervalLike.pair (some 2) (some 8)) sCov
        = Except.error PyExc.keyError :=
  ⟨by decide, by decide,
    (c3_remove_exact_member sCov (IntervalLike.pair (some 2) (some 8)) iPair28
      (by rfl)).2.2 ⟨by decide, by decide⟩⟩

/-- Claim C4: the intersection of the interval set built from
`[(2, 8), (10, 11, True, True)]` with the interval set built from
`[(0, 7), (8, 13)]` is the interval set built from
`[(2, 7), (10, 11, True, True)]`. -/
theorem c4_intersection_example :
    intersection
        (fromIterable [IntervalLike.pair (some (2 : ℤ)) (some 8),
          IntervalLike.quad (some 10) (some 11) (some true) (some true)])
        (fromIterable [IntervalLike.pair (some 0) (some 7),
          IntervalLike.pair (some 8) (some 13)])
      = fromIterable [IntervalLike.pair (some 2) (some 7),
          IntervalLike.quad (some 10) (some 11) (some true) (some true)] := by
  rw [intersection, mergeScan_exec]
  decide

/-- Claim C5: for all canonical interval sequences `A` and `B`, the symmetric
difference `A ^ B` equals `(A - B) | (B - A)` — an equality of canonical
representations, obtained from canonical-form uniqueness and the coverage
semantics of the sweep. -/
theorem c5_symmetric_difference_law (A B : List (Interval α)) (hA : Canon A)
    (hB : Canon B) :
    symmetric_difference A B = union (difference A B) (difference B A) := by
  have hDA : Canon (difference A B) := mergeScan_canon _ hA hB
  have hDB : Canon (difference B A) := mergeScan_canon _ hB hA
  apply canon_ext
  · exact mergeScan_canon _ hA hB
  · exact mergeScan_canon _ hDA hDB
  · intro m
    unfold symmetric_difference union difference
    unfold difference at hDA hDB
    rw [mergeScan_cover _ rfl hA hB, mergeScan_cover _ rfl hDA hDB,
      mergeScan_cover _ rfl hA hB, mergeScan_cover _ rfl hB hA]
    rcases cover A m with _ | _ <;> rcases cover B m with _ | _ <;> rfl

/-- Claim C5, witness at two concrete canonical operands. -/
theorem c5_symmetric_difference_witness :
    symmetric_difference wSetA wSetB
      = union (difference wSetA wSetB) (difference wSetB wSetA) :=
  c5_symmetric_difference_law wSetA wSetB (by decide) (by decide)

/-- Claim C6: for all atomic intervals `a` and `b` and both strictness modes,
`a.meets(b, reverse=True)` returns the same Boolean as `b.meets(a)`:
`reverse=True` computes the relation with the operand roles swapped. -/
theorem c6_meets_reverse (a b : Atomic α) (strict : Bool) :
    meets a b strict true = meets b a strict false := rfl

/-- Claim C7: compression of an interval dictionary is idempotent — on any
dictionary satisfying the §3 key invariant (non-empty, sorted, disjoint
interval keys), compressing a compressed dictionary changes nothing. -/
theorem c7_compress_idempotent {V : Type} [DecidableEq V]
    (d : List (Interval α × V)) (h : DictCanon d) :
    compress (compress d) = compress d :=
  compress_fixed (compress d) (compress_good d h).2.1

/-- Claim C7, witness: the dictionary `{[10; 15): 1, [15; 25): 1}` with two
near equal-valued entries. -/
theorem c7_compress_witness : compress (compress dC7) = compress dC7 :=
  c7_compress_idempotent dC7 (by decide)

/-- Claim C8: `from_bounds` (realized by `Interval.__init__`) fails — with
`InvalidBoundsError`, surfaced as the Python `ValueError` — exactly when the
lower value strictly exceeds the upper value under the value order after the
None-as-infinity convention; for all `lower ≤ upper` construction succeeds. -/
theorem c8_from_bounds_error_iff (l u : Option α) (lc uc : Bool) :
    ((from_bounds l u lc uc).isOk
        = IVal.leB (lowerIVal l) (upperIVal u)) ∧
      (IVal.leB (lowerIVal l) (upperIVal u) = false →
        from_bounds l u lc uc = Except.error PyExc.valueError) := by
  unfold from_bounds
  by_cases hle : IVal.leB (lowerIVal l) (upperIVal u) = true
  · rw [if_pos hle, hle]
    refine ⟨rfl, ?_⟩
    intro hcontra
    cases hcontra
  · have hle' : IVal.leB (lowerIVal l) (upperIVal u) = false := by
      simpa using hle
    rw [if_neg hle, hle']
    exact ⟨rfl, fun _ => rfl⟩

/-- Claim C8, witness: constructing from bounds `5 > 3` fails with the
invalid-bounds error. -/
theorem c8_from_bounds_witness :
    from_bounds (some (5 : ℤ)) (some 3) true false
      = Except.error PyExc.valueError :=
  (c8_from_bounds_error_iff (some (5 : ℤ)) (some 3) true false).2 (by decide)

/-- Claim C9: the operators union, intersection and complement on atomic
intervals always return a `FrozenIntervalSet` value — never a bare atomic
interval and never a mutable set — matching the stub return types. -/
theorem c9_atomic_operators_frozen (a b : Atomic α) :
    (Atomic.orOp a b).isFrozenSet = true ∧
      (Atomic.andOp a b).isFrozenSet = true ∧
      (Atomic.invOp a).isFrozenSet = true :=
  ⟨rfl, rfl, rfl⟩

/-- Claim C10: at the public interface, a missing-member removal on a mutable
interval set and a lookup miss on an interval dictionary both fail with the
host language's built-in `KeyError` — the single error value `PyExc.keyError`
models it, and no distinct NotFoundError or KeyNotFoundError class exists in
the model, matching the notebook (`except KeyError`) and the stub, which
declares no such classes. -/
theorem c10_keyerror_exposed {V : Type} [DecidableEq V] :
    (∀ (s : List (Interval α)) (v : IntervalLike α) (i : Interval α)
      (e : PyExc), coerce v = Except.ok (Atomic.interval i) →
      remove v s = Except.error e → e = PyExc.keyError) ∧
    (∀ (d : List (Interval α × V)) (k : IntervalLike α) (i : Interval α)
      (e : PyExc), coerce k = Except.ok (Atomic.interval i) →
      getitem d k = Except.error e → e = PyExc.keyError) := by
  constructor
  · intro s v i e hco hrem
    unfold remove at hrem
    rw [hco] at hrem
    have hrem' : (if i ∈ s then Except.ok (s.erase i)
        else Except.error PyExc.keyError) = Except.error e := hrem
    by_cases hi : i ∈ s
    · rw [if_pos hi] at hrem'
      cases hrem'
    · rw [if_neg hi] at hrem'
      cases hrem'
      rfl
  · intro d k i e hco hget
    unfold getitem at hget
    rw [hco] at hget
    have hget' : (match d.find? fun p =>
        Mark.leB p.1.lower i.lower && Mark.leB i.upper p.1.upper with
      | some p => Except.ok p.2
      | none => (Except.error PyExc.keyError : Except PyExc V))
        = Except.error e := hget
    rcases hf : d.find? fun p =>
        Mark.leB p.1.lower i.lower && Mark.leB i.upper p.1.upper with _ | p
    · rw [hf] at hget'
      cases hget'
      rfl
    · rw [hf] at hget'
      cases hget'

/-- Claim C10, witness: the notebook's `remove((2, 8))` on
`[2, (6, 7), (8, 10, None), (11, 13, True, True)]` and the notebook's
`a[(12, 17)]` on `{(10, 15): 1, (20, 25): 2, (30, 35): 3}` both fail, and
both failures carry the built-in `KeyError`. -/
theorem c10_keyerror_witness :
    remove (IntervalLike.pair (some (2 : ℤ)) (some 8)) sNB
        = Except.error PyExc.keyError ∧
      getitem dNB (IntervalLike.pair (some (12 : ℤ)) (some 17))
        = Except.error PyExc.keyError ∧
      PyExc.keyError = PyExc.keyError ∧ PyExc.keyError = PyExc.keyError :=
  ⟨rfl, rfl,
    (c10_keyerror_exposed (V := ℤ)).1 sNB
      (IntervalLike.pair (some 2) (some 8)) iPair28
      PyExc.keyError (by rfl) (by rfl),
    (c10_keyerror_exposed (V := ℤ)).2 dNB (IntervalLike.pair (some 12) (some 17))
      ⟨⟨IVal.point 12, 0⟩, ⟨IVal.point 17, -1⟩⟩ PyExc.keyError (by rfl) (by rfl)⟩

end PyPart
